import Mathlib

/-!
Verification of the algcmp C++ reference pipeline.

This file gives a shallow embedding, in Lean 4, of the core logic of the
repository: reference deduplication (src/references.rs, src/commands/download.rs),
the C++ name comparator (src/references.rs), the line-based reference extraction
pattern (the regular expression of extract_references), the fetch/cache loop
(download_files in src/commands/download.rs), the page sanitizer
(remove_navigation_elements in src/html/processing.rs, process_html in
src/commands/download.rs), the code-block flattener (flatten_code_blocks in
src/html/processing.rs, process_for_printing in src/commands/print.rs), and the
missing-file check of print_references (src/commands/print.rs).

Filesystem, network and HTML parsing are external collaborators: they are
modelled by explicit parameters (a fetch oracle, a parse and a serialize
function) or by explicit state (the set of cached file names).  Documents are
modelled as ordered trees; element node identifiers model the node ids of the
ego-tree arena used by the scraper crate.  Strings are manipulated as their
character lists where the source manipulates string slices; Rust compares
strings byte-wise in UTF-8, which orders exactly like the code-point order on
characters used here.
-/

namespace Algcmp

/-- Application errors, from AppError in src/errors.rs.  The payload of
IoError is the message string of the underlying std::io::Error; RegexError and
HttpError keep only a message as well. -/
inductive AppError where
  | IoError (msg : String)
  | RegexError (msg : String)
  | HttpError (msg : String)
  | MissingUrl (file : String) (line : Nat)
  | InvalidFileFormat (file : String) (line : Nat)
  | DuplicateConflict (name : String) (url1 : String) (url2 : String)
  | MissingRequiredFiles (count : Nat) (files : String)
  | HtmlParsingError (file : String) (reason : String)
deriving DecidableEq, Repr

/-- A C++ reference entry, from CppReference in src/references.rs.  The
variant in src/commands/download.rs carries a source file and line as well;
those two fields are used only for logging there and are omitted here. -/
structure CppReference where
  name : String
  url : String
deriving DecidableEq, Repr

/-! ## Deduplication (deduplicate_references) -/

/-- Lookup in the uniqueness map.  The HashMap of the source is modelled as an
association list from names to references; this is HashMap::get. -/
def mapLookup : List (String × CppReference) → String → Option CppReference
  | [], _ => none
  | p :: ps, n => if p.1 = n then some p.2 else mapLookup ps n

/-- The fold inside deduplicate_references (src/references.rs lines 140-163):
for each record, an existing entry of the same name with a different URL is a
DuplicateConflict error carrying the stored URL and the new URL; an identical
entry is skipped; an unseen name is inserted. -/
def dedupGo : List (String × CppReference) → List CppReference →
    Except AppError (List (String × CppReference))
  | unique, [] => .ok unique
  | unique, r :: rest =>
    match mapLookup unique r.name with
    | some existing =>
      if existing.url ≠ r.url then
        .error (.DuplicateConflict r.name existing.url r.url)
      else
        dedupGo unique rest
    | none => dedupGo ((r.name, r) :: unique) rest

/-- deduplicate_references from src/references.rs (the identical function also
appears in src/commands/download.rs lines 134-157). -/
def deduplicate_references (references : List CppReference) :
    Except AppError (List (String × CppReference)) :=
  dedupGo [] references

/-- A record list is URL-consistent when records sharing a name share a URL. -/
def UrlConsistent (l : List CppReference) : Prop :=
  ∀ r1 ∈ l, ∀ r2 ∈ l, r1.name = r2.name → r1.url = r2.url

instance (l : List CppReference) : Decidable (UrlConsistent l) := by
  unfold UrlConsistent
  infer_instance

theorem mapLookup_mem {m : List (String × CppReference)} {n : String} {v : CppReference}
    (h : mapLookup m n = some v) : (n, v) ∈ m := by
  induction m with
  | nil => simp [mapLookup] at h
  | cons p ps ih =>
    obtain ⟨a, b⟩ := p
    simp only [mapLookup] at h
    split at h
    · cases h
      rename_i he
      subst he
      exact List.mem_cons_self _ _
    · exact List.mem_cons_of_mem _ (ih h)

theorem mapLookup_none {m : List (String × CppReference)} {n : String}
    (h : mapLookup m n = none) : n ∉ m.map Prod.fst := by
  induction m with
  | nil => simp
  | cons p ps ih =>
    simp only [mapLookup] at h
    split at h
    · cases h
    · rename_i he
      simp only [List.map_cons, List.mem_cons]
      rintro (h1 | h2)
      · exact he h1.symm
      · exact (ih h) h2

theorem mem_mapLookup {m : List (String × CppReference)} {n : String} {v : CppReference}
    (hnd : (m.map Prod.fst).Nodup) (h : (n, v) ∈ m) : mapLookup m n = some v := by
  induction m with
  | nil => simp at h
  | cons p ps ih =>
    simp only [List.map_cons, List.nodup_cons] at hnd
    rcases List.mem_cons.mp h with h1 | h2
    · rw [← h1]
      simp [mapLookup]
    · have hne : p.1 ≠ n := by
        intro he
        exact hnd.1 (he ▸ (List.mem_map.mpr ⟨(n, v), h2, rfl⟩))
      simp only [mapLookup, if_neg hne]
      exact ih hnd.2 h2

/-- Invariant of the deduplication fold on a URL-consistent input: it
succeeds, the resulting map has well-named entries with distinct keys, its
entries come from the accumulator or the input, the accumulator is preserved,
and every input record is retrievable by name with its own URL. -/
theorem dedupGo_ok (refs : List CppReference) : ∀ acc : List (String × CppReference),
    (∀ p ∈ acc, (p.2).name = p.1) →
    (acc.map Prod.fst).Nodup →
    (∀ r ∈ refs, ∀ p ∈ acc, p.1 = r.name → (p.2).url = r.url) →
    UrlConsistent refs →
    ∃ m, dedupGo acc refs = .ok m ∧
      (∀ p ∈ m, (p.2).name = p.1) ∧
      (m.map Prod.fst).Nodup ∧
      (∀ p ∈ acc, p ∈ m) ∧
      (∀ p ∈ m, p ∈ acc ∨ p.2 ∈ refs) ∧
      (∀ r ∈ refs, ∃ r2, mapLookup m r.name = some r2 ∧ r2.url = r.url) := by
  induction refs with
  | nil =>
    intro acc h1 h2 _ _
    exact ⟨acc, rfl, h1, h2, fun p hp => hp, fun p hp => Or.inl hp, by simp⟩
  | cons r rest ih =>
    intro acc hnames hnd hcompat hcons
    cases hl : mapLookup acc r.name with
    | some ex =>
      have hmem := mapLookup_mem hl
      have hurl : ex.url = r.url :=
        hcompat r (List.mem_cons_self r rest) (r.name, ex) hmem rfl
      have hstep : dedupGo acc (r :: rest) = dedupGo acc rest := by
        simp only [dedupGo, hl]
        rw [if_neg (by simp [hurl])]
      rw [hstep]
      obtain ⟨m, hm, ha, hb, hc, hd, he⟩ := ih acc hnames hnd
        (fun r' hr' p hp hpn => hcompat r' (List.mem_cons_of_mem r hr') p hp hpn)
        (fun r1 h1 r2 h2 hn => hcons r1 (List.mem_cons_of_mem r h1) r2 (List.mem_cons_of_mem r h2) hn)
      refine ⟨m, hm, ha, hb, hc, ?_, ?_⟩
      · intro p hp
        rcases hd p hp with h | h
        · exact Or.inl h
        · exact Or.inr (List.mem_cons_of_mem r h)
      · intro r' hr'
        rcases List.mem_cons.mp hr' with h | h
        · refine ⟨ex, ?_, h ▸ hurl⟩
          have : (r'.name, ex) ∈ m := hc _ (h ▸ hmem)
          exact mem_mapLookup hb this
        · exact he r' h
    | none =>
      have hnotin := mapLookup_none hl
      have hstep : dedupGo acc (r :: rest) = dedupGo ((r.name, r) :: acc) rest := by
        simp only [dedupGo, hl]
      rw [hstep]
      have hacc' : ∀ p ∈ (r.name, r) :: acc, (p.2).name = p.1 := by
        intro p hp
        rcases List.mem_cons.mp hp with h | h
        · rw [h]
        · exact hnames p h
      have hnd' : (((r.name, r) :: acc).map Prod.fst).Nodup := by
        simp only [List.map_cons, List.nodup_cons]
        exact ⟨hnotin, hnd⟩
      obtain ⟨m, hm, ha, hb, hc, hd, he⟩ := ih ((r.name, r) :: acc) hacc' hnd'
        (by
          intro r' hr' p hp hpn
          rcases List.mem_cons.mp hp with h | h
          · rw [h] at hpn ⊢
            exact hcons r (List.mem_cons_self r rest) r' (List.mem_cons_of_mem r hr') hpn
          · exact hcompat r' (List.mem_cons_of_mem r hr') p h hpn)
        (fun r1 h1 r2 h2 hn => hcons r1 (List.mem_cons_of_mem r h1) r2 (List.mem_cons_of_mem r h2) hn)
      refine ⟨m, hm, ha, hb, ?_, ?_, ?_⟩
      · intro p hp
        exact hc p (List.mem_cons_of_mem _ hp)
      · intro p hp
        rcases hd p hp with h | h
        · rcases List.mem_cons.mp h with h1 | h2
          · subst h1
            exact Or.inr (List.mem_cons_self _ _)
          · exact Or.inl h2
        · exact Or.inr (List.mem_cons_of_mem r h)
      · intro r' hr'
        rcases List.mem_cons.mp hr' with h | h
        · refine ⟨r, ?_, by rw [h]⟩
          have : (r'.name, r) ∈ m := hc _ (by rw [h]; exact List.mem_cons_self _ acc)
          exact mem_mapLookup hb this
        · exact he r' h

/-- The deduplication fold processes the input left to right. -/
theorem dedupGo_append (l1 l2 : List CppReference) (acc : List (String × CppReference)) :
    dedupGo acc (l1 ++ l2) =
      match dedupGo acc l1 with
      | .ok acc2 => dedupGo acc2 l2
      | .error e => .error e := by
  induction l1 generalizing acc with
  | nil => simp [dedupGo]
  | cons r rest ih =>
    rw [List.cons_append]
    cases hl : mapLookup acc r.name with
    | some ex =>
      by_cases h : ex.url = r.url
      · have h1 : dedupGo acc (r :: (rest ++ l2)) = dedupGo acc (rest ++ l2) := by
          simp only [dedupGo, hl]
          rw [if_neg (by simp [h])]
        have h2 : dedupGo acc (r :: rest) = dedupGo acc rest := by
          simp only [dedupGo, hl]
          rw [if_neg (by simp [h])]
        rw [h1, h2]
        exact ih acc
      · have h1 : dedupGo acc (r :: (rest ++ l2)) =
            .error (.DuplicateConflict r.name ex.url r.url) := by
          simp only [dedupGo, hl]
          rw [if_pos (by simp [h])]
        have h2 : dedupGo acc (r :: rest) =
            (.error (.DuplicateConflict r.name ex.url r.url) :
              Except AppError (List (String × CppReference))) := by
          simp only [dedupGo, hl]
          rw [if_pos (by simp [h])]
        rw [h1, h2]
    | none =>
      have h1 : dedupGo acc (r :: (rest ++ l2)) = dedupGo ((r.name, r) :: acc) (rest ++ l2) := by
        simp only [dedupGo, hl]
      have h2 : dedupGo acc (r :: rest) = dedupGo ((r.name, r) :: acc) rest := by
        simp only [dedupGo, hl]
      rw [h1, h2]
      exact ih _

/-- Claim C1: deduplication folds records with the same name and the same URL
into exactly one map entry with no error (the map keys are distinct, every
entry comes from the input, and every input record is still retrievable by
name with its URL, so nothing is dropped or overwritten); and the first
subsequent record whose name already exists in the map with a different URL
makes deduplication fail immediately (whatever follows it) with a conflict
error carrying that symbol name and both conflicting URLs. -/
theorem C1_deduplication (refs : List CppReference) :
    (UrlConsistent refs →
      ∃ m, deduplicate_references refs = .ok m ∧
        (∀ p ∈ m, (p.2).name = p.1) ∧
        (m.map Prod.fst).Nodup ∧
        (∀ p ∈ m, p.2 ∈ refs) ∧
        (∀ r ∈ refs, ∃ r2, mapLookup m r.name = some r2 ∧ r2.url = r.url)) ∧
    (∀ pre r post, refs = pre ++ r :: post → UrlConsistent pre →
      (∃ r0, r0 ∈ pre ∧ r0.name = r.name ∧ r0.url ≠ r.url) →
      ∃ r0, r0 ∈ pre ∧ r0.name = r.name ∧ r0.url ≠ r.url ∧
        deduplicate_references refs =
          .error (.DuplicateConflict r.name r0.url r.url)) := by
  constructor
  · intro hcons
    obtain ⟨m, hm, ha, hb, _, hd, he⟩ := dedupGo_ok refs [] (by simp) (by simp) (by simp) hcons
    refine ⟨m, hm, ha, hb, ?_, he⟩
    intro p hp
    rcases hd p hp with h | h
    · simp at h
    · exact h
  · rintro pre r post rfl hpre ⟨r0, hr0mem, hr0name, hr0url⟩
    obtain ⟨m, hm, _, hb, _, _, he⟩ := dedupGo_ok pre [] (by simp) (by simp) (by simp) hpre
    obtain ⟨r2, hlook, hurl2⟩ := he r0 hr0mem
    refine ⟨r0, hr0mem, hr0name, hr0url, ?_⟩
    unfold deduplicate_references
    rw [dedupGo_append, hm]
    have hlook2 : mapLookup m r.name = some r2 := by rw [← hr0name]; exact hlook
    simp only [dedupGo, hlook2]
    rw [if_pos (show r2.url ≠ r.url by rw [hurl2]; exact hr0url)]
    rw [hurl2]

/-- Witness for C1 at concrete inputs: an identical duplicate folds into one
entry with no error, and a same-name different-URL pair fails with the
conflict error naming the symbol and both URLs. -/
theorem C1_deduplication_witness :
    (∃ m, deduplicate_references [⟨("std::a"), ("u")⟩, ⟨("std::a"), ("u")⟩] = .ok m ∧
        (∀ p ∈ m, (p.2).name = p.1) ∧
        (m.map Prod.fst).Nodup ∧
        (∀ p ∈ m, p.2 ∈ [(⟨("std::a"), ("u")⟩ : CppReference), ⟨("std::a"), ("u")⟩]) ∧
        (∀ r ∈ [(⟨("std::a"), ("u")⟩ : CppReference), ⟨("std::a"), ("u")⟩],
          ∃ r2, mapLookup m r.name = some r2 ∧ r2.url = r.url)) ∧
    (∃ r0, r0 ∈ [(⟨("std::a"), ("u1")⟩ : CppReference)] ∧
      r0.name = (⟨("std::a"), ("u2")⟩ : CppReference).name ∧
      r0.url ≠ (⟨("std::a"), ("u2")⟩ : CppReference).url ∧
      deduplicate_references [⟨("std::a"), ("u1")⟩, ⟨("std::a"), ("u2")⟩] =
        .error (.DuplicateConflict (⟨("std::a"), ("u2")⟩ : CppReference).name r0.url
          (⟨("std::a"), ("u2")⟩ : CppReference).url)) :=
  ⟨(C1_deduplication _).1 (by decide),
   (C1_deduplication [⟨("std::a"), ("u1")⟩, ⟨("std::a"), ("u2")⟩]).2
     [⟨("std::a"), ("u1")⟩] ⟨("std::a"), ("u2")⟩ [] rfl (by decide)
     ⟨⟨("std::a"), ("u1")⟩, by decide, by decide, by decide⟩⟩

/-! ## Name comparison (compare_cpp_names) -/

/-- Byte-wise string comparison, str::cmp of Rust, on character lists (UTF-8
byte order coincides with code-point order). -/
def strCompare : List Char → List Char → Ordering
  | [], [] => .eq
  | [], _ :: _ => .lt
  | _ :: _, [] => .gt
  | a :: as, b :: bs =>
    match compare a b with
    | .eq => strCompare as bs
    | o => o

/-- split("::") of Rust: cut the character list at each non-overlapping
occurrence of the scope separator, left to right. -/
def splitCppAux : List Char → List Char → List (List Char)
  | ':' :: ':' :: cs, acc => acc :: splitCppAux cs []
  | c :: cs, acc => splitCppAux cs (acc ++ [c])
  | [], acc => [acc]

/-- The component sequence of a name: a.split("::").collect(). -/
def splitCpp (s : String) : List (List Char) := splitCppAux s.data []

/-- The loop of compare_cpp_names over zipped components: the first pair of
unequal components decides. -/
def zipCompare : List (List Char) → List (List Char) → Ordering
  | a :: as, b :: bs =>
    match strCompare a b with
    | .eq => zipCompare as bs
    | o => o
  | _, _ => .eq

/-- compare_cpp_names from src/references.rs lines 191-205: split both names
on the scope separator, compare component-by-component, and if all zipped
components are equal compare the component counts. -/
def compare_cpp_names (a b : String) : Ordering :=
  let aParts := splitCpp a
  let bParts := splitCpp b
  match zipCompare aParts bParts with
  | .eq => compare aParts.length bParts.length
  | o => o

/-- Modelled from the spec (section 4.4): ordinary lexicographic ordering on
component sequences, the shorter sequence first when one is a proper prefix of
the other.  The comparator is checked against this definition. -/
def lexCompare : List (List Char) → List (List Char) → Ordering
  | [], [] => .eq
  | [], _ :: _ => .lt
  | _ :: _, [] => .gt
  | a :: as, b :: bs =>
    match strCompare a b with
    | .eq => lexCompare as bs
    | o => o

theorem compare_succ (m n : Nat) : compare (m + 1) (n + 1) = compare m n := by
  cases h : compare m n with
  | eq => rw [Nat.compare_eq_eq] at h ⊢; omega
  | lt => rw [Nat.compare_eq_lt] at h ⊢; omega
  | gt => rw [Nat.compare_eq_gt] at h ⊢; omega

theorem zipCompare_lexCompare (xs ys : List (List Char)) :
    (match zipCompare xs ys with
     | .eq => compare xs.length ys.length
     | o => o) = lexCompare xs ys := by
  induction xs generalizing ys with
  | nil =>
    cases ys with
    | nil => simp [zipCompare, lexCompare, Nat.compare_eq_eq]
    | cons y ys => simp [zipCompare, lexCompare, Nat.compare_eq_lt]
  | cons x xs ih =>
    cases ys with
    | nil => simp [zipCompare, lexCompare, Nat.compare_eq_gt]
    | cons y ys =>
      simp only [zipCompare, lexCompare, List.length_cons]
      cases h : strCompare x y <;> simp only [h]
      · rw [compare_succ]
        exact ih ys

/-- Claim C3: the comparator splits on the scope separator and orders names by
the lexicographic order of their component sequences (first unequal component
decides, and with equal zipped components the shorter sequence sorts first),
and in particular the four quoted comparisons hold. -/
theorem C3_compare_cpp_names :
    (∀ a b : String, compare_cpp_names a b = lexCompare (splitCpp a) (splitCpp b)) ∧
    compare_cpp_names ("ns::list") ("ns::vector") = .lt ∧
    compare_cpp_names ("ns::vector") ("ns::vector") = .eq ∧
    compare_cpp_names ("ns::vector") ("ns::vector::iterator") = .lt ∧
    compare_cpp_names ("a::b::c") ("a::b") = .gt := by
  refine ⟨?_, by decide, by decide, by decide, by decide⟩
  intro a b
  unfold compare_cpp_names
  exact zipCompare_lexCompare (splitCpp a) (splitCpp b)

/-! ## Reference extraction (extract_references) -/

/-- The backtick character of the extraction pattern. -/
def btick : Char := Char.ofNat 96
/-- The double quote character, the negated class of the URL capture. -/
def dquote : Char := Char.ofNat 34

/-- Unicode whitespace characters: the class matched by the backslash-s of the
Rust regex crate and trimmed by str::trim. -/
def wsChars : List Char :=
  [Char.ofNat 9, Char.ofNat 10, Char.ofNat 11, Char.ofNat 12, Char.ofNat 13,
   Char.ofNat 32, Char.ofNat 133, Char.ofNat 160, Char.ofNat 5760,
   Char.ofNat 8192, Char.ofNat 8193, Char.ofNat 8194, Char.ofNat 8195,
   Char.ofNat 8196, Char.ofNat 8197, Char.ofNat 8198, Char.ofNat 8199,
   Char.ofNat 8200, Char.ofNat 8201, Char.ofNat 8202, Char.ofNat 8232,
   Char.ofNat 8233, Char.ofNat 8239, Char.ofNat 8287, Char.ofNat 12288]

/-- Whitespace test used for the pattern and for trimming. -/
def isWsChar (c : Char) : Bool := wsChars.contains c

/-- The literal URL head of the second capture group of the extraction
pattern in extract_references (src/references.rs line 91). -/
def urlHead : List Char := ("https://en.cppreference.com/w/cpp/").data

/-- Match a literal character sequence, returning the remainder. -/
def stripLit : List Char → List Char → Option (List Char)
  | [], cs => some cs
  | p :: ps, c :: cs => if c = p then stripLit ps cs else none
  | _ :: _, [] => none

/-- After the closing parenthesis of the URL the pattern requires optional
whitespace and then a pipe. -/
def closeTail (cs : List Char) : Bool :=
  match cs.dropWhile isWsChar with
  | c :: _ => c = '|'
  | [] => false

/-- Greedy match of the URL tail: the longest non-quote prefix that is
followed by a closing parenthesis, optional whitespace and a pipe, as the
greedy one-or-more non-quote class of the pattern backtracks to the last
viable closing parenthesis. -/
def urlSplit : List Char → Option (List Char)
  | [] => none
  | c :: cs =>
    if c = dquote then none
    else
      match urlSplit cs with
      | some tail => some (c :: tail)
      | none => if c = ')' ∧ closeTail cs then some [] else none

/-- Match the link-target part of the pattern after the closing bracket: an
opening parenthesis, the fixed URL head, and the greedy URL tail, which must
be nonempty. -/
def afterBkt (name : List Char) (cs : List Char) : Option (List Char × List Char) :=
  match cs with
  | c :: rest =>
    if c = '(' then
      match stripLit urlHead rest with
      | some rest2 =>
        match urlSplit rest2 with
        | some tail => if tail.isEmpty then none else some (name, urlHead ++ tail)
        | none => none
      | none => none
    else none
  | [] => none

/-- Match the pattern part after the closing backtick of the name: optional
whitespace, an optional parenthesized aside (nonempty, matched but
discarded), then the closing bracket and the link target. -/
def afterName (name : List Char) (cs : List Char) : Option (List Char × List Char) :=
  match cs.dropWhile isWsChar with
  | c :: rest =>
    if c = ']' then afterBkt name rest
    else if c = '(' then
      let ann := rest.takeWhile (· != ')')
      match rest.dropWhile (· != ')') with
      | _ :: rest2 =>
        if ann.isEmpty then none
        else
          match rest2 with
          | c2 :: rest3 => if c2 = ']' then afterBkt name rest3 else none
          | [] => none
      | [] => none
    else none
  | [] => none

/-- Match the extraction regex of extract_references (src/references.rs line
91, identical in src/commands/download.rs line 87) at the start of the given
text: a pipe, a nonempty cell without pipes, a pipe, whitespace, an opening
bracket, a backtick, the literal std colon colon prefix, a nonempty
name without backticks, a backtick, the optional aside, a bracketed URL and a
closing pipe.  Every quantifier of the pattern is forced except the URL tail,
which is greedy; the choices here reproduce the leftmost-first preference
order of the Rust regex crate for this pattern. -/
def matchAt (cs : List Char) : Option (List Char × List Char) :=
  match cs with
  | c0 :: rest =>
    if c0 = '|' then
      let seg := rest.takeWhile (· != '|')
      match rest.dropWhile (· != '|') with
      | _ :: rest2 =>
        if seg.isEmpty then none
        else
          match rest2.dropWhile isWsChar with
          | c1 :: rest3 =>
            if c1 = '[' then
              match rest3 with
              | b :: rest4 =>
                if b = btick then
                  match stripLit (("std::").data) rest4 with
                  | some rest5 =>
                    let nm := rest5.takeWhile (fun c => c != btick)
                    match rest5.dropWhile (fun c => c != btick) with
                    | _ :: rest7 =>
                      if nm.isEmpty then none
                      else afterName (("std::").data ++ nm) rest7
                    | [] => none
                  | none => none
                else none
              | [] => none
            else none
          | [] => none
      | [] => none
    else none
  | [] => none

/-- Regex search: try the pattern at each start position, left to right, as
Regex::captures does. -/
def regexCapturesAux : List Char → Option (List Char × List Char)
  | [] => none
  | c :: cs =>
    match matchAt (c :: cs) with
    | some r => some r
    | none => regexCapturesAux cs

/-- The two capture groups of Regex::captures on a line, when the line
matches: the symbol name (group 1) and the URL (group 2). -/
def regexCaptures (line : String) : Option (List Char × List Char) :=
  regexCapturesAux line.data

/-- str::trim of Rust: remove leading and trailing whitespace. -/
def trimChars (cs : List Char) : List Char :=
  ((cs.dropWhile isWsChar).reverse.dropWhile isWsChar).reverse

/-- The per-line step of extract_references: when the pattern matches, the
record holds the trimmed captures.  The ok-or-else error branches of the
source (InvalidFileFormat, MissingUrl) fire only when capture group 1 or 2 is
absent; both groups are mandatory subexpressions of the pattern, so a match
always carries both and those branches are unreachable: a line that does not
fully match the pattern is silently skipped. -/
def extractLineRef (line : List Char) : Option CppReference :=
  match regexCapturesAux line with
  | some (n, u) => some ⟨(trimChars n).asString, (trimChars u).asString⟩
  | none => none








theorem dropWhile_head_not {p : Char → Bool} {l : List Char} {c : Char} {t : List Char}
    (h : l.dropWhile p = c :: t) : p c = false := by
  induction l with
  | nil => simp [List.dropWhile] at h
  | cons a l ih =>
    rw [List.dropWhile_cons] at h
    split at h
    · exact ih h
    · cases h
      rename_i hp
      simpa using hp

theorem takeWhile_mem {p : Char → Bool} {l : List Char} {c : Char}
    (h : c ∈ l.takeWhile p) : p c = true := List.mem_takeWhile_imp h

theorem stripLit_sound {ps cs r : List Char} (h : stripLit ps cs = some r) :
    cs = ps ++ r := by
  induction ps generalizing cs with
  | nil => cases h; simp [stripLit]
  | cons p ps ih =>
    cases cs with
    | nil => simp [stripLit] at h
    | cons c cs =>
      simp only [stripLit] at h
      split at h
      · rename_i he
        subst he
        rw [List.cons_append]
        rw [ih h]
      · cases h

theorem closeTail_sound {cs : List Char} (h : closeTail cs = true) :
    ∃ w junk, cs = w ++ '|' :: junk ∧ ∀ c ∈ w, isWsChar c := by
  unfold closeTail at h
  cases hd : cs.dropWhile isWsChar with
  | nil => rw [hd] at h; cases h
  | cons c t =>
    rw [hd] at h
    have hc : c = '|' := by simpa using h
    refine ⟨cs.takeWhile isWsChar, t, ?_, fun x hx => takeWhile_mem hx⟩
    rw [← hc, ← hd]
    exact (List.takeWhile_append_dropWhile _ _).symm

theorem urlSplit_sound {cs tail : List Char} (h : urlSplit cs = some tail) :
    (∀ c ∈ tail, c ≠ dquote) ∧
    ∃ w junk, cs = tail ++ ')' :: w ++ '|' :: junk ∧ ∀ c ∈ w, isWsChar c := by
  induction cs generalizing tail with
  | nil => simp [urlSplit] at h
  | cons c cs ih =>
    simp only [urlSplit] at h
    split at h
    · cases h
    · rename_i hq
      cases hu : urlSplit cs with
      | some t =>
        rw [hu] at h
        cases h
        obtain ⟨h1, w, junk, h2, h3⟩ := ih hu
        refine ⟨?_, w, junk, by simp [h2], h3⟩
        intro x hx
        rcases List.mem_cons.mp hx with h4 | h4
        · rw [h4]; exact hq
        · exact h1 x h4
      | none =>
        rw [hu] at h
        by_cases hcl : c = ')' ∧ closeTail cs
        · rw [if_pos hcl] at h
          cases h
          obtain ⟨w, junk, h2, h3⟩ := closeTail_sound hcl.2
          exact ⟨by simp, w, junk, by simp [hcl.1, h2], h3⟩
        · rw [if_neg hcl] at h
          cases h

theorem afterBkt_sound {name cs n u : List Char} (h : afterBkt name cs = some (n, u)) :
    n = name ∧
    ∃ tail w junk, u = urlHead ++ tail ∧ tail ≠ [] ∧ (∀ c ∈ tail, c ≠ dquote) ∧
      (∀ c ∈ w, isWsChar c) ∧
      cs = '(' :: u ++ ')' :: w ++ '|' :: junk := by
  unfold afterBkt at h
  cases cs with
  | nil => cases h
  | cons c0 rest =>
    simp only at h
    split at h
    · rename_i hc0
      cases hs : stripLit urlHead rest with
      | none => simp [hs] at h
      | some rest2 =>
        simp only [hs] at h
        cases hu : urlSplit rest2 with
        | none => simp [hu] at h
        | some tail =>
          simp only [hu] at h
          split at h
          · cases h
          · rename_i hne
            cases h
            obtain ⟨h1, w, junk, h2, h3⟩ := urlSplit_sound hu
            refine ⟨rfl, tail, w, junk, rfl, by simpa using hne, h1, h3, ?_⟩
            rw [hc0, stripLit_sound hs, h2]
            simp
    · cases h

theorem afterName_sound {name cs n u : List Char} (h : afterName name cs = some (n, u)) :
    ∃ w2 annot restU,
      cs = w2 ++ annot ++ ']' :: restU ∧
      (∀ c ∈ w2, isWsChar c) ∧
      (annot = [] ∨ ∃ ann, annot = '(' :: ann ++ [')'] ∧ ann ≠ [] ∧ (∀ c ∈ ann, ¬ c = ')')) ∧
      afterBkt name restU = some (n, u) := by
  unfold afterName at h
  cases hd : cs.dropWhile isWsChar with
  | nil => simp [hd] at h
  | cons c rest =>
    simp only [hd] at h
    have hcs : cs = cs.takeWhile isWsChar ++ c :: rest := by
      rw [← hd]
      exact (List.takeWhile_append_dropWhile _ _).symm
    have hws : ∀ x ∈ cs.takeWhile isWsChar, isWsChar x := fun x hx => takeWhile_mem hx
    generalize cs.takeWhile isWsChar = w at hcs hws
    split at h
    · rename_i hc
      exact ⟨w, [], rest, by rw [hcs, hc]; simp, hws, Or.inl rfl, h⟩
    · split at h
      · rename_i hc
        cases hdp : rest.dropWhile (· != ')') with
        | nil => simp [hdp] at h
        | cons cp rest2 =>
          simp only [hdp] at h
          have hcp : cp = ')' := by simpa using dropWhile_head_not hdp
          split at h
          · cases h
          · rename_i hne
            cases rest2 with
            | nil => simp at h
            | cons c2 rest3 =>
              simp only at h
              split at h
              · rename_i hc2
                have hrest : rest = rest.takeWhile (· != ')') ++ cp :: c2 :: rest3 := by
                  rw [← hdp]
                  exact (List.takeWhile_append_dropWhile _ _).symm
                have hannmem : ∀ x ∈ rest.takeWhile (· != ')'), ¬ x = ')' := by
                  intro x hx
                  simpa using takeWhile_mem hx
                have hanne : rest.takeWhile (· != ')') ≠ [] := by simpa using hne
                generalize rest.takeWhile (· != ')') = ann at hrest hannmem hanne
                refine ⟨w, '(' :: ann ++ [')'], rest3, ?_, hws,
                  Or.inr ⟨ann, rfl, hanne, hannmem⟩, h⟩
                rw [hcs, hc, hrest, hcp, hc2]
                simp
              · cases h
      · cases h

theorem matchAt_sound {cs n u : List Char} (h : matchAt cs = some (n, u)) :
    ∃ seg w1 nm w2 annot tail w3 junk,
      cs = '|' :: seg ++ '|' :: w1 ++ '[' :: btick :: n ++ btick :: w2 ++ annot ++
           ']' :: '(' :: u ++ ')' :: w3 ++ '|' :: junk ∧
      n = ("std::").data ++ nm ∧ nm ≠ [] ∧ (∀ c ∈ nm, ¬ c = btick) ∧
      (∀ c ∈ n, ¬ c = btick) ∧
      seg ≠ [] ∧ (∀ c ∈ seg, ¬ c = '|') ∧
      (∀ c ∈ w1, isWsChar c) ∧ (∀ c ∈ w2, isWsChar c) ∧ (∀ c ∈ w3, isWsChar c) ∧
      (annot = [] ∨ ∃ ann, annot = '(' :: ann ++ [')'] ∧ ann ≠ [] ∧ (∀ c ∈ ann, ¬ c = ')')) ∧
      u = urlHead ++ tail ∧ tail ≠ [] ∧ (∀ c ∈ tail, ¬ c = dquote) := by
  unfold matchAt at h
  cases cs with
  | nil => cases h
  | cons c0 rest =>
    simp only at h
    split at h
    · rename_i hc0
      cases hdp : rest.dropWhile (· != '|') with
      | nil => simp [hdp] at h
      | cons p2 rest2 =>
        simp only [hdp] at h
        have hp2 : p2 = '|' := by simpa using dropWhile_head_not hdp
        have hrest : rest = rest.takeWhile (· != '|') ++ p2 :: rest2 := by
          rw [← hdp]
          exact (List.takeWhile_append_dropWhile _ _).symm
        split at h
        · cases h
        · rename_i hseg
          have hsege : rest.takeWhile (· != '|') ≠ [] := by simpa using hseg
          have hsegmem : ∀ x ∈ rest.takeWhile (· != '|'), ¬ x = '|' := by
            intro x hx
            simpa using takeWhile_mem hx
          generalize rest.takeWhile (· != '|') = seg at hrest hsege hsegmem
          cases hd3 : rest2.dropWhile isWsChar with
          | nil => simp [hd3] at h
          | cons c1 rest3 =>
            simp only [hd3] at h
            have hrest2 : rest2 = rest2.takeWhile isWsChar ++ c1 :: rest3 := by
              rw [← hd3]
              exact (List.takeWhile_append_dropWhile _ _).symm
            have hw1mem : ∀ x ∈ rest2.takeWhile isWsChar, isWsChar x :=
              fun x hx => takeWhile_mem hx
            generalize rest2.takeWhile isWsChar = w1 at hrest2 hw1mem
            split at h
            · rename_i hc1
              cases rest3 with
              | nil => simp at h
              | cons b rest4 =>
                simp only at h
                split at h
                · rename_i hb
                  cases hs : stripLit (("std::").data) rest4 with
                  | none => simp [hs] at h
                  | some rest5 =>
                    simp only [hs] at h
                    have hrest4 := stripLit_sound hs
                    cases hd6 : rest5.dropWhile (fun c => c != btick) with
                    | nil => simp [hd6] at h
                    | cons bt2 rest7 =>
                      simp only [hd6] at h
                      have hbt2 : bt2 = btick := by simpa using dropWhile_head_not hd6
                      have hrest5 : rest5 = rest5.takeWhile (fun c => c != btick) ++ bt2 :: rest7 := by
                        rw [← hd6]
                        exact (List.takeWhile_append_dropWhile _ _).symm
                      split at h
                      · cases h
                      · rename_i hnm
                        have hnme : rest5.takeWhile (fun c => c != btick) ≠ [] := by
                          simpa using hnm
                        have hnmmem : ∀ x ∈ rest5.takeWhile (fun c => c != btick), ¬ x = btick := by
                          intro x hx
                          simpa using takeWhile_mem hx
                        generalize hgnm : rest5.takeWhile (fun c => c != btick) = nm
                          at hrest5 hnme hnmmem h
                        obtain ⟨w2, annot, restU, hU1, hU2, hU3, hU4⟩ := afterName_sound h
                        obtain ⟨hn, tail, w3, junk, hu1, hu2, hu3, hu4, hu5⟩ := afterBkt_sound hU4
                        refine ⟨seg, w1, nm, w2, annot, tail, w3, junk,
                          ?_, hn, hnme, hnmmem, ?_, hsege, hsegmem,
                          hw1mem, hU2, hu4, hU3, hu1, hu2, hu3⟩
                        · rw [hc0, hrest, hp2, hrest2, hc1, hb, hrest4, hrest5,
                            hbt2, hU1, hu5, hn]
                          simp
                        · rw [hn]
                          intro x hx
                          rcases List.mem_append.mp hx with h4 | h4
                          · fin_cases h4 <;> decide
                          · exact hnmmem x h4
                · cases h
            · cases h
    · cases h

theorem regexCapturesAux_sound {cs n u : List Char} (h : regexCapturesAux cs = some (n, u)) :
    ∃ pre rest2, cs = pre ++ rest2 ∧ matchAt rest2 = some (n, u) := by
  induction cs with
  | nil => simp [regexCapturesAux] at h
  | cons c cs ih =>
    simp only [regexCapturesAux] at h
    cases hm : matchAt (c :: cs) with
    | some r =>
      rw [hm] at h
      cases h
      exact ⟨[], c :: cs, by simp, hm⟩
    | none =>
      rw [hm] at h
      obtain ⟨pre, rest2, h1, h2⟩ := ih h
      exact ⟨c :: pre, rest2, by simp [h1], h2⟩

/-- A Markdown file: path and contents.  The filesystem read is the external
collaborator; extract_references receives the contents directly. -/
structure MdFile where
  path : String
  content : String
deriving DecidableEq, Repr

/-- str::lines strips one carriage return before each line feed. -/
def dropCr (l : List Char) : List Char :=
  if l.getLast? = some '\r' then l.dropLast else l

/-- Split at line feeds, stripping a carriage return before each one. -/
def splitNlAux : List Char → List Char → List (List Char)
  | '\n' :: cs, acc => dropCr acc :: splitNlAux cs []
  | c :: cs, acc => splitNlAux cs (acc ++ [c])
  | [], acc => [acc]

/-- str::lines of Rust: split at line feeds, with no trailing empty line for
a trailing line feed. -/
def rustLines (s : String) : List (List Char) :=
  let parts := splitNlAux s.data []
  if parts.getLast? = some [] then parts.dropLast else parts

/-- extract_references from src/references.rs lines 86-122 (identical in
src/commands/download.rs lines 82-123): scan every line of every file with
the pattern and collect a record per matching line.  Filesystem and regex
compilation errors are external; no per-line error is reachable, see
extractLineRef. -/
def extract_references (files : List MdFile) : Except AppError (List CppReference) :=
  .ok (files.foldr (fun f acc => (rustLines f.content).filterMap extractLineRef ++ acc) [])

/-- Claim C7 (amended): for every line that fully matches the extraction
pattern, the extracted record holds the two captures trimmed of surrounding
whitespace: the name is the backtick-free symbol text captured between the
backticks (the parenthesized aside is matched outside the capture and
discarded), and the URL is the captured link target (verbatim whenever the
capture carries no surrounding whitespace).  The line decomposes exactly as
the pattern prescribes around the two captures. -/
theorem C7_extraction (line n u : List Char)
    (h : regexCapturesAux line = some (n, u)) :
    extractLineRef line = some ⟨(trimChars n).asString, (trimChars u).asString⟩ ∧
    (∀ c ∈ n, ¬ c = btick) ∧
    (∃ nm, n = ("std::").data ++ nm ∧ nm ≠ [] ∧ (∀ c ∈ nm, ¬ c = btick)) ∧
    (∃ tail, u = urlHead ++ tail ∧ tail ≠ [] ∧ (∀ c ∈ tail, ¬ c = dquote)) ∧
    ∃ pre seg w1 w2 annot w3 junk,
      line = pre ++ '|' :: seg ++ '|' :: w1 ++ '[' :: btick :: n ++ btick :: w2 ++ annot ++
        ']' :: '(' :: u ++ ')' :: w3 ++ '|' :: junk ∧
      seg ≠ [] ∧ (∀ c ∈ seg, ¬ c = '|') ∧
      (∀ c ∈ w1, isWsChar c) ∧ (∀ c ∈ w2, isWsChar c) ∧ (∀ c ∈ w3, isWsChar c) ∧
      (annot = [] ∨ ∃ ann, annot = '(' :: ann ++ [')'] ∧ ann ≠ [] ∧ (∀ c ∈ ann, ¬ c = ')')) := by
  obtain ⟨pre, rest2, hsplit, hm⟩ := regexCapturesAux_sound h
  obtain ⟨seg, w1, nm, w2, annot, tail, w3, junk, h1, h2, h3, h4, h5, h6, h7,
    h8, h9, h10, h11, h12, h13, h14⟩ := matchAt_sound hm
  refine ⟨?_, h5, ⟨nm, h2, h3, h4⟩, ⟨tail, h12, h13, h14⟩,
    pre, seg, w1, w2, annot, w3, junk, ?_, h6, h7, h8, h9, h10, h11⟩
  · unfold extractLineRef
    rw [h]
  · rw [hsplit, h1]
    simp

/-- Witness for C7 at a concrete matching line. -/
theorem C7_extraction_witness :
    extractLineRef (("| a | [`std::abs`](https://en.cppreference.com/w/cpp/numeric/math/abs) |").data)
      = some ⟨(trimChars (("std::abs").data)).asString,
          (trimChars (("https://en.cppreference.com/w/cpp/numeric/math/abs").data)).asString⟩ :=
  (C7_extraction (("| a | [`std::abs`](https://en.cppreference.com/w/cpp/numeric/math/abs) |").data)
    (("std::abs").data) (("https://en.cppreference.com/w/cpp/numeric/math/abs").data)
    (by decide)).1

/-- Counterexample to C7 as stated: on a line whose bracketed link target
ends with a space, the extracted URL is the trimmed capture, not the verbatim
capture. -/
theorem C7_counterexample :
    regexCaptures ("| a | [`std::f`](https://en.cppreference.com/w/cpp/f )|")
      = some (("std::f").data, ("https://en.cppreference.com/w/cpp/f ").data) ∧
    extractLineRef (("| a | [`std::f`](https://en.cppreference.com/w/cpp/f )|").data)
      = some ⟨("std::f"), ("https://en.cppreference.com/w/cpp/f")⟩ ∧
    (⟨("std::f"), ("https://en.cppreference.com/w/cpp/f")⟩ : CppReference).url
      ≠ (("https://en.cppreference.com/w/cpp/f ").data).asString :=
  ⟨by decide, by decide, by decide⟩

/-- Claim C4 is wrong about the code: a line containing the bracketed
back-tick-quoted name construct with a URL outside the fixed domain, or a
bracketed name without backticks with a well-formed URL, does not match the
pattern and is silently skipped with no error, while a fully matching line
yields its record.  The error branches the claim refers to are unreachable
(see extractLineRef), although the source doc comment of extract_references
announces an error for invalid reference entries. -/
theorem C4_partial_match_skipped :
    extract_references
        [⟨("contents/doc.md"), ("| x | [`std::sort`](https://wrong.example.com/sort) |")⟩]
      = .ok [] ∧
    extract_references
        [⟨("contents/doc.md"), ("| x | [std::sort](https://en.cppreference.com/w/cpp/algorithm/sort) |")⟩]
      = .ok [] ∧
    extract_references
        [⟨("contents/doc.md"),
          ("| Algorithm | [`std::sort`](https://en.cppreference.com/w/cpp/algorithm/sort) | s |")⟩]
      = .ok [⟨("std::sort"), ("https://en.cppreference.com/w/cpp/algorithm/sort")⟩] :=
  ⟨rfl, rfl, rfl⟩


/-! ## HTML documents -/

/- An HTML document tree, the model of the scraper DOM.  Elements carry the
arena node id, the tag name, the attribute list and the child list; HForest is
the child list (a mutual inductive so that all tree recursion is structural).
Only element and text nodes are modelled: the other scraper node kinds
(comments, doctype, processing instructions) are skipped by every loop in the
source that walks children. -/
mutual
inductive HNode where
  | elem (id : Nat) (tag : String) (attrs : List (String × String)) (children : HForest)
  | text (s : String)
inductive HForest where
  | nil
  | cons (n : HNode) (rest : HForest)
end

/-- Attribute lookup by name (the parser keeps one value per attribute). -/
def attrLookup : List (String × String) → String → Option String
  | [], _ => none
  | p :: ps, k => if p.1 = k then some p.2 else attrLookup ps k

/-- Split a class attribute value on whitespace runs. -/
def classListAux : List Char → List Char → List (List Char)
  | [], acc => if acc.isEmpty then [] else [acc]
  | c :: cs, acc =>
    if isWsChar c then
      (if acc.isEmpty then classListAux cs [] else acc :: classListAux cs [])
    else classListAux cs (acc ++ [c])

/-- The CSS class selector: the element has the class among the
whitespace-separated words of its class attribute. -/
def hasClass (attrs : List (String × String)) (cls : String) : Bool :=
  match attrLookup attrs ("class") with
  | some v => (classListAux v.data []).contains cls.data
  | none => false

/-- The selector .t-navbar of remove_navigation_elements and process_html. -/
def isNavbar : HNode → Bool
  | .elem _ _ attrs _ => hasClass attrs ("t-navbar")
  | .text _ => false

/-- The selector with the id mw-head of remove_navigation_elements and
process_html. -/
def isMwHead : HNode → Bool
  | .elem _ _ attrs _ => attrLookup attrs ("id") == some ("mw-head")
  | .text _ => false

/- Number of nodes matching a selector in a forest and in a subtree
(document order is irrelevant to the count). -/
mutual
def countMatches (p : HNode → Bool) : HForest → Nat
  | .nil => 0
  | .cons n rest => countNode p n + countMatches p rest
def countNode (p : HNode → Bool) : HNode → Nat
  | .text s => if p (.text s) then 1 else 0
  | .elem i t a cs => (if p (.elem i t a cs) then 1 else 0) + countMatches p cs
end

/- Remove the first node (in document preorder) matching the selector and
return it with the remaining forest: this is select(..).next() followed by
remove_from_parent, which detaches the whole subtree of the match. -/
mutual
def extractFirst (p : HNode → Bool) : HForest → Option (HNode × HForest)
  | .nil => none
  | .cons n rest =>
    if p n then some (n, rest)
    else
      match extractFirstNode p n with
      | some (r, n2) => some (r, .cons n2 rest)
      | none =>
        match extractFirst p rest with
        | some (r, rest2) => some (r, .cons n rest2)
        | none => none
def extractFirstNode (p : HNode → Bool) : HNode → Option (HNode × HNode)
  | .text _ => none
  | .elem i t a cs =>
    match extractFirst p cs with
    | some (r, cs2) => some (r, .elem i t a cs2)
    | none => none
end

example :
    extractFirst isMwHead
      (.cons (.elem 1 ("html") [] (.cons (.elem 2 ("body") []
        (.cons (.elem 5 ("div") [(("id"), ("mw-head"))] .nil) .nil)) .nil)) .nil)
    = some (.elem 5 ("div") [(("id"), ("mw-head"))] .nil,
        .cons (.elem 1 ("html") [] (.cons (.elem 2 ("body") [] .nil) .nil)) .nil) := by
  rfl

mutual
theorem extractFirst_sat (p : HNode → Bool) :
    ∀ (l : HForest) (r : HNode) (l2 : HForest),
      extractFirst p l = some (r, l2) → p r = true
  | .nil, r, l2, h => by simp [extractFirst] at h
  | .cons n rest, r, l2, h => by
    simp only [extractFirst] at h
    split at h
    · rename_i hp
      cases h
      exact hp
    · cases hn : extractFirstNode p n with
      | some pr =>
        obtain ⟨r2, n2⟩ := pr
        simp only [hn] at h
        cases h
        exact extractFirstNode_sat p n _ _ hn
      | none =>
        simp only [hn] at h
        cases hr : extractFirst p rest with
        | some pr2 =>
          obtain ⟨r2, rest2⟩ := pr2
          simp only [hr] at h
          cases h
          exact extractFirst_sat p rest _ _ hr
        | none => simp [hr] at h
theorem extractFirstNode_sat (p : HNode → Bool) :
    ∀ (n : HNode) (r : HNode) (n2 : HNode),
      extractFirstNode p n = some (r, n2) → p r = true
  | .text s, r, n2, h => by simp [extractFirstNode] at h
  | .elem i t a cs, r, n2, h => by
    simp only [extractFirstNode] at h
    cases hc : extractFirst p cs with
    | some pr =>
      obtain ⟨r2, cs2⟩ := pr
      simp only [hc] at h
      cases h
      exact extractFirst_sat p cs _ _ hc
    | none => simp [hc] at h
end

/-- A predicate that, like the CSS selectors in play, looks only at the tag
and attributes of an element, never at its children. -/
def ElemPred (q : HNode → Bool) : Prop :=
  ∀ i t a cs cs2, q (.elem i t a cs) = q (.elem i t a cs2)

mutual
theorem extractFirst_count (q : HNode → Bool) (hq : ElemPred q) (p : HNode → Bool) :
    ∀ (l : HForest) (r : HNode) (l2 : HForest),
      extractFirst p l = some (r, l2) →
      countMatches q l = countNode q r + countMatches q l2
  | .nil, r, l2, h => by simp [extractFirst] at h
  | .cons n rest, r, l2, h => by
    simp only [extractFirst] at h
    split at h
    · cases h
      simp only [countMatches]
    · cases hn : extractFirstNode p n with
      | some pr =>
        obtain ⟨r2, n2⟩ := pr
        simp only [hn] at h
        cases h
        have := extractFirstNode_count q hq p n _ _ hn
        simp only [countMatches]
        omega
      | none =>
        simp only [hn] at h
        cases hr : extractFirst p rest with
        | some pr2 =>
          obtain ⟨r2, rest2⟩ := pr2
          simp only [hr] at h
          cases h
          have := extractFirst_count q hq p rest _ _ hr
          simp only [countMatches]
          omega
        | none => simp [hr] at h
theorem extractFirstNode_count (q : HNode → Bool) (hq : ElemPred q) (p : HNode → Bool) :
    ∀ (n : HNode) (r : HNode) (n2 : HNode),
      extractFirstNode p n = some (r, n2) →
      countNode q n = countNode q r + countNode q n2
  | .text s, r, n2, h => by simp [extractFirstNode] at h
  | .elem i t a cs, r, n2, h => by
    simp only [extractFirstNode] at h
    cases hc : extractFirst p cs with
    | some pr =>
      obtain ⟨r2, cs2⟩ := pr
      simp only [hc] at h
      cases h
      have := extractFirst_count q hq p cs _ _ hc
      have hqe := hq i t a cs cs2
      simp only [countNode]
      rw [hqe]
      omega
    | none => simp [hc] at h
end

mutual
theorem extractFirst_none_iff (p : HNode → Bool) :
    ∀ (l : HForest), extractFirst p l = none ↔ countMatches p l = 0
  | .nil => by simp [extractFirst, countMatches]
  | .cons n rest => by
    simp only [extractFirst, countMatches]
    by_cases hp : p n = true
    · rw [if_pos hp]
      constructor
      · intro h; cases h
      · intro h
        have : 1 ≤ countNode p n := by
          cases n with
          | elem i t a cs => simp only [countNode, if_pos hp]; omega
          | text s => simp only [countNode, if_pos hp]; omega
        omega
    · rw [if_neg hp]
      cases hn : extractFirstNode p n with
      | some pr =>
        obtain ⟨r2, n2⟩ := pr
        simp only [hn]
        constructor
        · intro h; cases h
        · intro h
          have h1 : countNode p n = 0 := by omega
          rw [(extractFirstNode_none_iff p n hp).mpr h1] at hn
          cases hn
      | none =>
        simp only [hn]
        have h1 : countNode p n = 0 := (extractFirstNode_none_iff p n hp).mp hn
        cases hr : extractFirst p rest with
        | some pr2 =>
          obtain ⟨r2, rest2⟩ := pr2
          simp only [hr]
          constructor
          · intro h; cases h
          · intro h
            have h2 : countMatches p rest = 0 := by omega
            rw [(extractFirst_none_iff p rest).mpr h2] at hr
            cases hr
        | none =>
          simp only [hr]
          have h2 : countMatches p rest = 0 := (extractFirst_none_iff p rest).mp hr
          constructor
          · intro _; omega
          · intro _; trivial
theorem extractFirstNode_none_iff (p : HNode → Bool) :
    ∀ (n : HNode), ¬ p n = true → (extractFirstNode p n = none ↔ countNode p n = 0)
  | .text s, hp => by
    simp only [extractFirstNode, countNode, if_neg hp]
  | .elem i t a cs, hp => by
    simp only [extractFirstNode, countNode, if_neg hp]
    cases hc : extractFirst p cs with
    | some pr =>
      obtain ⟨r2, cs2⟩ := pr
      simp only [hc]
      constructor
      · intro h; cases h
      · intro h
        have h1 : countMatches p cs = 0 := by omega
        rw [(extractFirst_none_iff p cs).mpr h1] at hc
        cases hc
    | none =>
      simp only [hc]
      have h1 : countMatches p cs = 0 := (extractFirst_none_iff p cs).mp hc
      constructor
      · intro _; omega
      · intro _; trivial
end

/-- Tree-level core of remove_navigation_elements (src/html/processing.rs
lines 33-77) and of process_html (src/commands/download.rs lines 218-269):
remove the first .t-navbar match, then look for the first mw-head match in
the modified tree and remove it; none means at least one region was missing,
in which case the source logs a warning and returns the original string (the
source also performs the removals eagerly in that case, but discards the
modified tree, so the observable result is the same). -/
def removeNavCore (doc : HForest) : Option HForest :=
  match extractFirst isNavbar doc with
  | some (_, d1) =>
    (match extractFirst isMwHead d1 with
     | some (_, d2) => some d2
     | none => none)
  | none => none

/-- remove_navigation_elements from src/html/processing.rs: parse the page,
remove the two navigation regions, and re-serialize; when a region is missing
return the input string unchanged.  Parsing and serialization are the
html5ever collaborators, passed as parameters. -/
def remove_navigation_elements (parse : String → HForest)
    (serialize : HForest → String) (content : String) (name : String) :
    Except AppError String :=
  match removeNavCore (parse content) with
  | some d => .ok (serialize d)
  | none => .ok content

/-- process_html from src/commands/download.rs lines 218-269: the same code
as remove_navigation_elements. -/
def process_html (parse : String → HForest) (serialize : HForest → String)
    (content : String) (name : String) : Except AppError String :=
  remove_navigation_elements parse serialize content name

/-- Claim C6: when the navigation-bar region or the page-header region is
missing from the input page, the sanitizer returns the original markup
byte-identical to the input (not a partially-sanitized document), and the
sanitizer never returns an error. -/
theorem C6_sanitizer_miss (parse : String → HForest) (serialize : HForest → String)
    (content name : String) :
    ((extractFirst isNavbar (parse content) = none ∨
        extractFirst isMwHead (parse content) = none) →
      remove_navigation_elements parse serialize content name = .ok content) ∧
    (∃ s, remove_navigation_elements parse serialize content name = .ok s) := by
  constructor
  · intro h
    unfold remove_navigation_elements removeNavCore
    rcases h with h | h
    · simp only [h]
    · cases hnav : extractFirst isNavbar (parse content) with
      | none => simp only [hnav]
      | some pr =>
        obtain ⟨r, d1⟩ := pr
        have hc := extractFirst_count isMwHead (fun _ _ _ _ _ => rfl) isNavbar
          (parse content) r d1 hnav
        have h0 : countMatches isMwHead (parse content) = 0 :=
          (extractFirst_none_iff isMwHead (parse content)).mp h
        have hd1 : countMatches isMwHead d1 = 0 := by omega
        simp only [hnav, (extractFirst_none_iff isMwHead d1).mpr hd1]
  · unfold remove_navigation_elements
    cases removeNavCore (parse content) with
    | some d => exact ⟨serialize d, rfl⟩
    | none => exact ⟨content, rfl⟩

/-- Witness for C6 at a concrete page with no navigation bar. -/
theorem C6_sanitizer_miss_witness :
    remove_navigation_elements (fun _ => .cons (HNode.elem 0 ("html") [] .nil) .nil)
      (fun _ => ("")) ("<html></html>") ("std::x") = .ok ("<html></html>") :=
  (C6_sanitizer_miss _ _ _ _).1 (Or.inl rfl)

/-- A page with two nested .t-navbar elements and one mw-head element, for
claim C10: html, body, a navbar containing a second navbar, and the header. -/
def navCexDoc : HForest :=
  .cons (.elem 1 ("html") []
    (.cons (.elem 2 ("body") []
      (.cons (.elem 3 ("div") [(("class"), ("t-navbar"))]
        (.cons (.elem 4 ("div") [(("class"), ("t-navbar"))] .nil) .nil))
       (.cons (.elem 5 ("div") [(("id"), ("mw-head"))] .nil) .nil))) .nil)) .nil

/-- Counterexample to C10 as stated: on a page with two navigation matches,
the second nested inside the first, the sanitizer removes the whole subtree
of the first match, so the remaining match is not left in place: zero
matches remain instead of one. -/
theorem C10_counterexample :
    countMatches isNavbar navCexDoc = 2 ∧
    countMatches isMwHead navCexDoc = 1 ∧
    removeNavCore navCexDoc =
      some (.cons (.elem 1 ("html") [] (.cons (.elem 2 ("body") [] .nil) .nil)) .nil) ∧
    countMatches isNavbar
        (.cons (.elem 1 ("html") [] (.cons (.elem 2 ("body") [] .nil) .nil)) .nil)
      ≠ countMatches isNavbar navCexDoc - 1 :=
  ⟨rfl, rfl, rfl, by decide⟩

/-- Claim C10 (amended): when the page has a first (document-order)
navigation-bar match and a page-header match still present after that
removal, the sanitizer removes exactly the first navigation match together
with its entire subtree (matches outside the removed subtrees are left in
place, which is what the count equations state) and the first remaining
page-header element, and returns the re-serialized modified document rather
than the original input. -/
theorem C10_navigation_first_removal (parse : String → HForest)
    (serialize : HForest → String) (content name : String)
    (r h0 : HNode) (d1 d2 : HForest)
    (hnav : extractFirst isNavbar (parse content) = some (r, d1))
    (hhead : extractFirst isMwHead d1 = some (h0, d2)) :
    remove_navigation_elements parse serialize content name = .ok (serialize d2) ∧
    isNavbar r = true ∧ isMwHead h0 = true ∧
    countMatches isNavbar (parse content) =
      countNode isNavbar r + countMatches isNavbar d1 ∧
    1 ≤ countNode isNavbar r ∧
    countMatches isMwHead d1 = countNode isMwHead h0 + countMatches isMwHead d2 := by
  refine ⟨?_, extractFirst_sat isNavbar _ _ _ hnav, extractFirst_sat isMwHead _ _ _ hhead,
    extractFirst_count isNavbar (fun _ _ _ _ _ => rfl) isNavbar _ _ _ hnav, ?_,
    extractFirst_count isMwHead (fun _ _ _ _ _ => rfl) isMwHead _ _ _ hhead⟩
  · unfold remove_navigation_elements removeNavCore
    simp only [hnav, hhead]
  · have hr := extractFirst_sat isNavbar _ _ _ hnav
    cases r with
    | elem i t a cs => simp only [countNode, if_pos hr]; omega
    | text s => simp only [countNode, if_pos hr]; omega

/-- Witness for C10 at the concrete nested-navbar page. -/
theorem C10_navigation_first_removal_witness :
    remove_navigation_elements (fun _ => navCexDoc) (fun _ => ("out")) ("page") ("std::x")
      = .ok ("out") :=
  (C10_navigation_first_removal (fun _ => navCexDoc) (fun _ => ("out")) ("page") ("std::x")
    (.elem 3 ("div") [(("class"), ("t-navbar"))]
      (.cons (.elem 4 ("div") [(("class"), ("t-navbar"))] .nil) .nil))
    (.elem 5 ("div") [(("id"), ("mw-head"))] .nil)
    (.cons (.elem 1 ("html") [] (.cons (.elem 2 ("body") []
      (.cons (.elem 5 ("div") [(("id"), ("mw-head"))] .nil) .nil)) .nil)) .nil)
    (.cons (.elem 1 ("html") [] (.cons (.elem 2 ("body") [] .nil) .nil)) .nil)
    (by rfl) (by rfl)).1


/-! ## Code block flattening (flatten_code_blocks) -/

/-- The selector pre.de1 of flatten_code_blocks (src/html/processing.rs line
97) and process_for_printing (src/commands/print.rs line 275). -/
def isPreDe1 : HNode → Bool
  | .elem _ t attrs _ => (t == ("pre")) && hasClass attrs ("de1")
  | .text _ => false

/- ElementRef::text(): the concatenation, in document order, of all text
under a node. -/
mutual
def forestText : HForest → String
  | .nil => ""
  | .cons n rest => nodeText n ++ forestText rest
def nodeText : HNode → String
  | .text s => s
  | .elem _ _ _ cs => forestText cs
end

/- The upfront pass of flatten_code_blocks: the arena ids of all pre.de1
elements, in document preorder, as select(..).map(id).collect() yields. -/
mutual
def collectF : HForest → List Nat
  | .nil => []
  | .cons n rest => collectN n ++ collectF rest
def collectN : HNode → List Nat
  | .text _ => []
  | .elem i t a cs => (if isPreDe1 (.elem i t a cs) then [i] else []) ++ collectF cs
end

/- Find the node with the given arena id in the document tree; none when the
node is detached, as select(..).find(id) misses detached nodes. -/
mutual
def findByIdF (j : Nat) : HForest → Option HNode
  | .nil => none
  | .cons n rest =>
    match findByIdN j n with
    | some x => some x
    | none => findByIdF j rest
def findByIdN (j : Nat) : HNode → Option HNode
  | .text _ => none
  | .elem i t a cs => if i = j then some (.elem i t a cs) else findByIdF j cs
end

/- Replace the children of the element with the given id, the net effect of
reparent_children to a fresh detached temp node followed by append of a text
node; the identity when the id is absent from the document, because the
mutations then touch only detached arena nodes. -/
mutual
def setChildrenF (j : Nat) (newCs : HForest) : HForest → HForest
  | .nil => .nil
  | .cons n rest => .cons (setChildrenN j newCs n) (setChildrenF j newCs rest)
def setChildrenN (j : Nat) (newCs : HForest) : HNode → HNode
  | .text s => .text s
  | .elem i t a cs =>
    if i = j then .elem i t a newCs else .elem i t a (setChildrenF j newCs cs)
end

/-- One iteration of the flattening loop for the collected id j: compute the
subtree text of the node if it is still in the document (empty when
detached), then replace its children with a single text node. -/
def flattenStep (doc : HForest) (j : Nat) : HForest :=
  let txt :=
    match findByIdF j doc with
    | some n => nodeText n
    | none => ""
  setChildrenF j (.cons (.text txt) .nil) doc

/-- flattenStep restricted to a single subtree. -/
def flattenStepN (n : HNode) (j : Nat) : HNode :=
  let txt :=
    match findByIdN j n with
    | some x => nodeText x
    | none => ""
  setChildrenN j (.cons (.text txt) .nil) n

/-- The tree-level body of flatten_code_blocks (src/html/processing.rs lines
93-129) and process_for_printing (src/commands/print.rs lines 267-319):
collect the pre.de1 ids in preorder, then fold the replacement step. -/
def flattenDoc (doc : HForest) : HForest :=
  (collectF doc).foldl flattenStep doc

/-- flatten_code_blocks from src/html/processing.rs: parse, flatten, and
re-serialize; the function never returns an error. -/
def flatten_code_blocks (parse : String → HForest) (serialize : HForest → String)
    (content : String) : Except AppError String :=
  .ok (serialize (flattenDoc (parse content)))

/-- process_for_printing from src/commands/print.rs lines 267-319: the same
code as flatten_code_blocks. -/
def process_for_printing (parse : String → HForest) (serialize : HForest → String)
    (content : String) : Except AppError String :=
  flatten_code_blocks parse serialize content

/- Stated behavior of claim C9, as a recursive map: each code block tagged
pre.de1 becomes the same element with a single text node holding the
concatenated text its subtree contained; everything outside such blocks is
left unchanged. -/
mutual
def flattenSpecF : HForest → HForest
  | .nil => .nil
  | .cons n rest => .cons (flattenSpecN n) (flattenSpecF rest)
def flattenSpecN : HNode → HNode
  | .text s => .text s
  | .elem i t a cs =>
    if isPreDe1 (.elem i t a cs) then
      .elem i t a (.cons (.text (nodeText (.elem i t a cs))) .nil)
    else .elem i t a (flattenSpecF cs)
end

/- All element ids of a document; the parser arena allocates them distinct,
which is the well-formedness hypothesis of the flattening theorem. -/
mutual
def idsF : HForest → List Nat
  | .nil => []
  | .cons n rest => idsN n ++ idsF rest
def idsN : HNode → List Nat
  | .text _ => []
  | .elem i _ _ cs => i :: idsF cs
end

mutual
theorem collectF_subset_idsF : ∀ (l : HForest) (j : Nat), j ∈ collectF l → j ∈ idsF l
  | .nil, j, h => by simp [collectF] at h
  | .cons n rest, j, h => by
    simp only [collectF, List.mem_append] at h
    simp only [idsF, List.mem_append]
    rcases h with h | h
    · exact Or.inl (collectN_subset_idsN n j h)
    · exact Or.inr (collectF_subset_idsF rest j h)
theorem collectN_subset_idsN : ∀ (n : HNode) (j : Nat), j ∈ collectN n → j ∈ idsN n
  | .text s, j, h => by simp [collectN] at h
  | .elem i t a cs, j, h => by
    simp only [collectN, List.mem_append] at h
    simp only [idsN, List.mem_cons]
    rcases h with h | h
    · split at h
      · simp only [List.mem_singleton] at h
        exact Or.inl h
      · simp at h
    · exact Or.inr (collectF_subset_idsF cs j h)
end

mutual
theorem findByIdF_notMem : ∀ (l : HForest) (j : Nat), j ∉ idsF l → findByIdF j l = none
  | .nil, j, h => rfl
  | .cons n rest, j, h => by
    simp only [idsF, List.mem_append] at h
    push_neg at h
    simp only [findByIdF, findByIdN_notMem n j h.1]
    exact findByIdF_notMem rest j h.2
theorem findByIdN_notMem : ∀ (n : HNode) (j : Nat), j ∉ idsN n → findByIdN j n = none
  | .text s, j, h => rfl
  | .elem i t a cs, j, h => by
    simp only [idsN, List.mem_cons] at h
    push_neg at h
    simp only [findByIdN, if_neg (by omega : ¬ i = j)]
    exact findByIdF_notMem cs j h.2
end

mutual
theorem setChildrenF_notMem (c : HForest) :
    ∀ (l : HForest) (j : Nat), j ∉ idsF l → setChildrenF j c l = l
  | .nil, j, h => rfl
  | .cons n rest, j, h => by
    simp only [idsF, List.mem_append] at h
    push_neg at h
    simp only [setChildrenF, setChildrenN_notMem c n j h.1, setChildrenF_notMem c rest j h.2]
theorem setChildrenN_notMem (c : HForest) :
    ∀ (n : HNode) (j : Nat), j ∉ idsN n → setChildrenN j c n = n
  | .text s, j, h => rfl
  | .elem i t a cs, j, h => by
    simp only [idsN, List.mem_cons] at h
    push_neg at h
    simp only [setChildrenN, if_neg (by omega : ¬ i = j), setChildrenF_notMem c cs j h.2]
end

mutual
theorem idsF_flattenSpecF : ∀ (l : HForest) (j : Nat), j ∈ idsF (flattenSpecF l) → j ∈ idsF l
  | .nil, j, h => h
  | .cons n rest, j, h => by
    simp only [flattenSpecF, idsF, List.mem_append] at h
    simp only [idsF, List.mem_append]
    rcases h with h | h
    · exact Or.inl (idsN_flattenSpecN n j h)
    · exact Or.inr (idsF_flattenSpecF rest j h)
theorem idsN_flattenSpecN : ∀ (n : HNode) (j : Nat), j ∈ idsN (flattenSpecN n) → j ∈ idsN n
  | .text s, j, h => h
  | .elem i t a cs, j, h => by
    simp only [flattenSpecN] at h
    split at h
    · simp only [idsN, idsF, List.append_nil, List.mem_cons] at h
      simp only [idsN, List.mem_cons]
      rcases h with h | h
      · exact Or.inl h
      · simp at h
    · simp only [idsN, List.mem_cons] at h
      simp only [idsN, List.mem_cons]
      rcases h with h | h
      · exact Or.inl h
      · exact Or.inr (idsF_flattenSpecF cs j h)
end

theorem flattenStep_cons_left {j : Nat} {rest : HForest} (n : HNode)
    (h : j ∉ idsF rest) :
    flattenStep (.cons n rest) j = .cons (flattenStepN n j) rest := by
  unfold flattenStep flattenStepN
  simp only [findByIdF, setChildrenF, setChildrenF_notMem _ rest j h]
  cases hn : findByIdN j n with
  | some x => simp only [hn]
  | none => simp only [hn, findByIdF_notMem rest j h]

theorem flattenStep_cons_right {j : Nat} {n : HNode} (rest : HForest)
    (h : j ∉ idsN n) :
    flattenStep (.cons n rest) j = .cons n (flattenStep rest j) := by
  unfold flattenStep
  simp only [findByIdF, setChildrenF, setChildrenN_notMem _ n j h, findByIdN_notMem n j h]

theorem flattenStepN_notMem {j : Nat} {n : HNode} (h : j ∉ idsN n) :
    flattenStepN n j = n := by
  unfold flattenStepN
  simp only [findByIdN_notMem n j h, setChildrenN_notMem _ n j h]

theorem flattenStepN_elem {j i : Nat} {t : String} {a : List (String × String)}
    (cs : HForest) (h : ¬ i = j) :
    flattenStepN (.elem i t a cs) j = .elem i t a (flattenStep cs j) := by
  unfold flattenStepN flattenStep
  simp only [findByIdN, if_neg h, setChildrenN, if_neg h]

theorem foldl_step_cons_left (L : List Nat) (n : HNode) (rest : HForest)
    (h : ∀ j ∈ L, j ∉ idsF rest) :
    L.foldl flattenStep (.cons n rest) = .cons (L.foldl flattenStepN n) rest := by
  induction L generalizing n with
  | nil => rfl
  | cons j L ih =>
    simp only [List.foldl_cons]
    rw [flattenStep_cons_left n (h j (List.mem_cons_self j L))]
    exact ih _ (fun x hx => h x (List.mem_cons_of_mem j hx))

theorem foldl_step_cons_right (L : List Nat) (n : HNode) (rest : HForest)
    (h : ∀ j ∈ L, j ∉ idsN n) :
    L.foldl flattenStep (.cons n rest) = .cons n (L.foldl flattenStep rest) := by
  induction L generalizing rest with
  | nil => rfl
  | cons j L ih =>
    simp only [List.foldl_cons]
    rw [flattenStep_cons_right rest (h j (List.mem_cons_self j L))]
    exact ih _ (fun x hx => h x (List.mem_cons_of_mem j hx))

theorem foldl_stepN_notMem (L : List Nat) (n : HNode)
    (h : ∀ j ∈ L, j ∉ idsN n) :
    L.foldl flattenStepN n = n := by
  induction L with
  | nil => rfl
  | cons j L ih =>
    simp only [List.foldl_cons]
    rw [flattenStepN_notMem (h j (List.mem_cons_self j L))]
    exact ih (fun x hx => h x (List.mem_cons_of_mem j hx))

theorem foldl_stepN_elem (L : List Nat) (i : Nat) (t : String)
    (a : List (String × String)) (cs : HForest)
    (h : ∀ j ∈ L, ¬ j = i) :
    L.foldl flattenStepN (.elem i t a cs) = .elem i t a (L.foldl flattenStep cs) := by
  induction L generalizing cs with
  | nil => rfl
  | cons j L ih =>
    simp only [List.foldl_cons]
    rw [flattenStepN_elem cs (fun he => h j (List.mem_cons_self j L) he.symm)]
    exact ih _ (fun x hx => h x (List.mem_cons_of_mem j hx))

mutual
theorem flattenF_eq_spec : ∀ (l : HForest), (idsF l).Nodup →
    (collectF l).foldl flattenStep l = flattenSpecF l
  | .nil, _ => rfl
  | .cons n rest, h => by
    have h' : (idsN n ++ idsF rest).Nodup := by simpa [idsF] using h
    rw [List.nodup_append] at h'
    obtain ⟨h1, h2, hdisj⟩ := h'
    simp only [collectF, List.foldl_append]
    rw [foldl_step_cons_left (collectN n) n rest
      (fun j hj hmem => hdisj (collectN_subset_idsN n j hj) hmem)]
    rw [flattenN_eq_spec n h1]
    rw [foldl_step_cons_right (collectF rest) (flattenSpecN n) rest
      (fun j hj hmem => hdisj (idsN_flattenSpecN n j hmem) (collectF_subset_idsF rest j hj))]
    rw [flattenF_eq_spec rest h2]
    simp only [flattenSpecF]
theorem flattenN_eq_spec : ∀ (n : HNode), (idsN n).Nodup →
    (collectN n).foldl flattenStepN n = flattenSpecN n
  | .text s, _ => rfl
  | .elem i t a cs, h => by
    have h' : i ∉ idsF cs ∧ (idsF cs).Nodup := by
      simpa [idsN, List.nodup_cons] using h
    by_cases hm : isPreDe1 (.elem i t a cs) = true
    · simp only [collectN, if_pos hm, List.singleton_append, List.foldl_cons]
      have hstep : flattenStepN (.elem i t a cs) i =
          .elem i t a (.cons (.text (forestText cs)) .nil) := by
        unfold flattenStepN
        simp [findByIdN, setChildrenN, nodeText]
      rw [hstep]
      rw [foldl_stepN_notMem (collectF cs) _ (fun j hj hmem => ?_)]
      · simp only [flattenSpecN, if_pos hm, nodeText]
      · simp only [idsN, idsF, List.mem_cons, List.append_nil] at hmem
        rcases hmem with hmem | hmem
        · exact h'.1 (hmem ▸ collectF_subset_idsF cs j hj)
        · simp [idsF] at hmem
    · simp only [collectN, if_neg hm, List.nil_append]
      rw [foldl_stepN_elem (collectF cs) i t a cs
        (fun j hj hji => h'.1 (hji ▸ collectF_subset_idsF cs j hj))]
      rw [flattenF_eq_spec cs h'.2]
      simp only [flattenSpecN, if_neg hm]
end

/-- The example document of claim C9 as written: a code block whose class is
highlight, not de1. -/
def hlCexDoc : HForest :=
  .cons (.elem 1 ("pre") [(("class"), ("highlight"))]
    (.cons (.elem 2 ("span") [] (.cons (.text ("x")) .nil))
      (.cons (.text ("y")) .nil))) .nil

/-- Counterexample to C9 as stated: the fixed highlighting class in the code
is de1, so flattening leaves the quoted example block (class highlight)
unchanged instead of collapsing it to its text. -/
theorem C9_counterexample :
    flattenDoc hlCexDoc = hlCexDoc ∧
    flattenDoc hlCexDoc ≠
      .cons (.elem 1 ("pre") [(("class"), ("highlight"))]
        (.cons (.text ("xy")) .nil)) .nil :=
  ⟨rfl, fun h => absurd
    (congrArg (countMatches fun n =>
      match n with
      | .elem _ t _ _ => t == ("span")
      | .text _ => false) h)
    (by decide)⟩

/-- The corrected example document: the same code block with class de1. -/
def deCexDoc : HForest :=
  .cons (.elem 1 ("pre") [(("class"), ("de1"))]
    (.cons (.elem 2 ("span") [] (.cons (.text ("x")) .nil))
      (.cons (.text ("y")) .nil))) .nil

/-- Claim C9 (amended): on a document with distinct element ids, flattened
mode replaces each code block tagged pre.de1 (the fixed class is de1, not
highlight) by the same element containing a single text node with the
concatenation, in order, of all text its subtree contained, and leaves all
content not inside such a block unchanged: the imperative loop equals the
recursive map flattenSpecF.  The quoted example holds with class de1. -/
theorem C9_flatten (parse : String → HForest) (serialize : HForest → String)
    (content : String) (hWF : (idsF (parse content)).Nodup) :
    flatten_code_blocks parse serialize content
      = .ok (serialize (flattenSpecF (parse content))) ∧
    process_for_printing parse serialize content
      = .ok (serialize (flattenSpecF (parse content))) ∧
    flattenDoc (parse content) = flattenSpecF (parse content) ∧
    flattenDoc deCexDoc =
      .cons (.elem 1 ("pre") [(("class"), ("de1"))]
        (.cons (.text ("xy")) .nil)) .nil := by
  have hmain : flattenDoc (parse content) = flattenSpecF (parse content) :=
    flattenF_eq_spec (parse content) hWF
  refine ⟨?_, ?_, hmain, rfl⟩
  · unfold flatten_code_blocks
    rw [hmain]
  · unfold process_for_printing flatten_code_blocks
    rw [hmain]

/-- Witness for C9 at the corrected example document. -/
theorem C9_flatten_witness :
    flatten_code_blocks (fun _ => deCexDoc) (fun _ => ("out")) ("page") = .ok ("out") :=
  (C9_flatten (fun _ => deCexDoc) (fun _ => ("out")) ("page") (by decide)).1


/-! ## The fetch cache loop (download_files) -/

/-- The observable filesystem and network state of one download run: the
names with a cache file present (path exists is modelled as membership) and
the URLs fetched so far, in order. -/
structure DlState where
  cache : List String
  calls : List String

/-- fs::write creates the cache file when absent; overwriting keeps the set. -/
def insertName (cache : List String) (n : String) : List String :=
  if n ∈ cache then cache else cache ++ [n]

/-- download_files from src/commands/download.rs lines 170-206: for each
entry, skip it when its cache file exists and overwrite is off; otherwise
fetch the URL (recorded as a network call; a failing fetch aborts the whole
run with the error, leaving the state as it stands), sanitize the body with
process_html, and persist the result.  The fetch parameter stands for the
composite send followed by text of the source (see httpFetch below): the
source checks no HTTP status (no error_for_status call anywhere), so a
non-success response is an ok fetch whose body is the error page.  The
reqwest client construction and the inter-request sleep have no observable
effect here; HashMap iteration order is unspecified, so the entries arrive
as an arbitrary list. -/
def download_files (parse : String → HForest) (serialize : HForest → String)
    (fetch : String → Except AppError String) (overwrite : Bool) :
    List (String × CppReference) → DlState → Option AppError × DlState
  | [], st => (none, st)
  | (name, r) :: rest, st =>
    if name ∈ st.cache ∧ overwrite = false then
      download_files parse serialize fetch overwrite rest st
    else
      match fetch r.url with
      | .error e => (some e, ⟨st.cache, st.calls ++ [r.url]⟩)
      | .ok content =>
        match process_html parse serialize content name with
        | .error e => (some e, ⟨st.cache, st.calls ++ [r.url]⟩)
        | .ok _processed =>
          download_files parse serialize fetch overwrite rest
            ⟨insertName st.cache name, st.calls ++ [r.url]⟩

/-- The entries whose cache file is absent: exactly the ones the loop
fetches when overwrite is off. -/
def missingOf (cache : List String) (refs : List (String × CppReference)) :
    List (String × CppReference) :=
  refs.filter (fun p => !cache.contains p.1)

/-- process_html never returns an error: both branches return Ok. -/
theorem process_html_isOk (parse : String → HForest) (serialize : HForest → String)
    (content name : String) :
    ∃ s, process_html parse serialize content name = .ok s := by
  unfold process_html remove_navigation_elements
  cases removeNavCore (parse content) with
  | some d => exact ⟨serialize d, rfl⟩
  | none => exact ⟨content, rfl⟩

/-- Characterization of a successful run with overwrite off: the calls are
exactly the URLs of the missing entries in iteration order, and the cache
gains exactly the missing names. -/
theorem download_ok (parse : String → HForest) (serialize : HForest → String)
    (fetch : String → Except AppError String) :
    ∀ (refs : List (String × CppReference)) (st : DlState),
    (refs.map Prod.fst).Nodup →
    (∀ p ∈ refs, p.1 ∉ st.cache → ∃ b, fetch p.2.url = .ok b) →
    download_files parse serialize fetch false refs st =
      (none, ⟨st.cache ++ (missingOf st.cache refs).map Prod.fst,
              st.calls ++ (missingOf st.cache refs).map (fun p => p.2.url)⟩)
  | [], st, _, _ => by simp [download_files, missingOf]
  | (name, r) :: rest, st, hnd, hfetch => by
    have hnd' : (rest.map Prod.fst).Nodup ∧ name ∉ rest.map Prod.fst := by
      simpa [List.nodup_cons, and_comm] using hnd
    by_cases hmem : name ∈ st.cache
    · have hstep : download_files parse serialize fetch false ((name, r) :: rest) st =
          download_files parse serialize fetch false rest st := by
        conv_lhs => rw [download_files]
        rw [if_pos ⟨hmem, rfl⟩]
      rw [hstep]
      rw [download_ok parse serialize fetch rest st hnd'.1
        (fun p hp => hfetch p (List.mem_cons_of_mem _ hp))]
      have hfilter : missingOf st.cache ((name, r) :: rest) = missingOf st.cache rest := by
        unfold missingOf
        rw [List.filter_cons]
        simp [List.contains, List.elem_eq_mem, hmem]
      rw [hfilter]
    · obtain ⟨b, hb⟩ := hfetch (name, r) (List.mem_cons_self _ _) hmem
      obtain ⟨s, hs⟩ := process_html_isOk parse serialize b name
      have hstep : download_files parse serialize fetch false ((name, r) :: rest) st =
          download_files parse serialize fetch false rest
            ⟨insertName st.cache name, st.calls ++ [r.url]⟩ := by
        conv_lhs => rw [download_files]
        rw [if_neg (by simp [hmem])]
        simp only [hb, hs]
      rw [hstep]
      have hins : insertName st.cache name = st.cache ++ [name] := by
        unfold insertName
        rw [if_neg hmem]
      rw [hins]
      rw [download_ok parse serialize fetch rest ⟨st.cache ++ [name], st.calls ++ [r.url]⟩
        hnd'.1
        (fun p hp hpc => hfetch p (List.mem_cons_of_mem _ hp)
          (fun hc => hpc (by simp [hc])))]
      have hfilter : missingOf (st.cache ++ [name]) rest = missingOf st.cache rest := by
        unfold missingOf
        apply List.filter_congr
        intro p hp
        have hne : p.1 ≠ name := by
          intro he
          exact hnd'.2 (he ▸ List.mem_map.mpr ⟨p, hp, rfl⟩)
        simp [List.contains, List.elem_eq_mem, List.mem_append, hne]
      rw [hfilter]
      have hm2 : missingOf st.cache ((name, r) :: rest) =
          (name, r) :: missingOf st.cache rest := by
        unfold missingOf
        rw [List.filter_cons]
        simp [List.contains, List.elem_eq_mem, hmem]
      rw [hm2]
      simp [List.append_assoc]

/-- The loop processes the entry list left to right. -/
theorem download_append (parse : String → HForest) (serialize : HForest → String)
    (fetch : String → Except AppError String) (overwrite : Bool) :
    ∀ (pre suf : List (String × CppReference)) (st st1 : DlState),
    download_files parse serialize fetch overwrite pre st = (none, st1) →
    download_files parse serialize fetch overwrite (pre ++ suf) st =
      download_files parse serialize fetch overwrite suf st1
  | [], suf, st, st1, h => by
    simp only [download_files] at h
    cases h
    rfl
  | (name, r) :: rest, suf, st, st1, h => by
    by_cases hc : name ∈ st.cache ∧ overwrite = false
    · have hstep : download_files parse serialize fetch overwrite ((name, r) :: rest) st =
          download_files parse serialize fetch overwrite rest st := by
        conv_lhs => rw [download_files]
        rw [if_pos hc]
      rw [hstep] at h
      have hstep2 : download_files parse serialize fetch overwrite
            (((name, r) :: rest) ++ suf) st =
          download_files parse serialize fetch overwrite (rest ++ suf) st := by
        conv_lhs => rw [List.cons_append, download_files]
        rw [if_pos hc]
      rw [hstep2]
      exact download_append parse serialize fetch overwrite rest suf st st1 h
    · cases hb : fetch r.url with
      | error e =>
        have : download_files parse serialize fetch overwrite ((name, r) :: rest) st =
            (some e, ⟨st.cache, st.calls ++ [r.url]⟩) := by
          conv_lhs => rw [download_files]
          rw [if_neg hc]
          simp only [hb]
        rw [this] at h
        cases h
      | ok content =>
        obtain ⟨s, hs⟩ := process_html_isOk parse serialize content name
        have hstep : download_files parse serialize fetch overwrite ((name, r) :: rest) st =
            download_files parse serialize fetch overwrite rest
              ⟨insertName st.cache name, st.calls ++ [r.url]⟩ := by
          conv_lhs => rw [download_files]
          rw [if_neg hc]
          simp only [hb, hs]
        rw [hstep] at h
        have hstep2 : download_files parse serialize fetch overwrite
              (((name, r) :: rest) ++ suf) st =
            download_files parse serialize fetch overwrite (rest ++ suf)
              ⟨insertName st.cache name, st.calls ++ [r.url]⟩ := by
          conv_lhs => rw [List.cons_append, download_files]
          rw [if_neg hc]
          simp only [hb, hs]
        rw [hstep2]
        exact download_append parse serialize fetch overwrite rest suf _ st1 h

/-- Claim C2: with overwrite off and the fetches of the missing entries
succeeding, every entry whose cache file exists is skipped with no network
call and no side effect, and exactly the missing entries are fetched: a
fully-present cache gives zero calls and leaves the state unchanged, and a
cache missing N entries gives exactly N calls and N new cache files. -/
theorem C2_fetch_cache (parse : String → HForest) (serialize : HForest → String)
    (fetch : String → Except AppError String)
    (refs : List (String × CppReference)) (st0 : DlState)
    (hnd : (refs.map Prod.fst).Nodup)
    (hfetch : ∀ p ∈ refs, p.1 ∉ st0.cache → ∃ b, fetch p.2.url = .ok b) :
    download_files parse serialize fetch false refs st0 =
      (none, ⟨st0.cache ++ (missingOf st0.cache refs).map Prod.fst,
              st0.calls ++ (missingOf st0.cache refs).map (fun p => p.2.url)⟩) ∧
    ((∀ p ∈ refs, p.1 ∈ st0.cache) →
      download_files parse serialize fetch false refs st0 = (none, st0)) ∧
    (download_files parse serialize fetch false refs st0).2.calls.length =
      st0.calls.length + (missingOf st0.cache refs).length ∧
    (download_files parse serialize fetch false refs st0).2.cache.length =
      st0.cache.length + (missingOf st0.cache refs).length := by
  have hmain := download_ok parse serialize fetch refs st0 hnd hfetch
  refine ⟨hmain, ?_, ?_, ?_⟩
  · intro hall
    have hm : missingOf st0.cache refs = [] := by
      unfold missingOf
      rw [List.filter_eq_nil_iff]
      intro p hp
      simp [List.contains, List.elem_eq_mem, hall p hp]
    rw [hmain, hm]
    simp
  · rw [hmain]
    simp
  · rw [hmain]
    simp

/-- Witness for C2: two required entries, one already cached: exactly one
call (its URL) and one new cache file. -/
theorem C2_fetch_cache_witness :
    download_files (fun _ => .nil) (fun _ => ("s")) (fun _ => .ok ("body")) false
      [(("std::a"), ⟨("std::a"), ("u1")⟩), (("std::b"), ⟨("std::b"), ("u2")⟩)]
      ⟨[("std::a")], []⟩
      = (none, ⟨[("std::a"), ("std::b")], [("u2")]⟩) :=
  (C2_fetch_cache (fun _ => .nil) (fun _ => ("s")) (fun _ => .ok ("body"))
    [(("std::a"), ⟨("std::a"), ("u1")⟩), (("std::b"), ⟨("std::b"), ("u2")⟩)]
    ⟨[("std::a")], []⟩ (by decide)
    (fun p hp hm => ⟨("body"), rfl⟩)).1

/-- The reqwest response as the download loop observes it: the HTTP status
code and the outcome of reading the body with text().  No line of the loop
reads the status field. -/
structure HttpResponse where
  status : Nat
  text : Except AppError String

/-- client.get(url).send() followed by response.text(), the network step of
download_files (src/commands/download.rs lines 192-193): a transport error
from send or a body-read error from text propagates; the status code of a
delivered response, success or not, is discarded. -/
def httpFetch (send : String → Except AppError HttpResponse) (url : String) :
    Except AppError String :=
  match send url with
  | .error e => .error e
  | .ok resp => resp.text

/-- Counterexample to C8 as stated: the loop never checks the HTTP status.
With a 404 response for the first entry the run does not abort: the error
page body is sanitized and written to the cache, the second entry is still
fetched, and the run reports success, while the claim requires a fatal abort
at the non-success status with nothing after it. -/
theorem C8_counterexample :
    ((fun u => if u = ("u1") then .ok ⟨404, .ok ("notfound")⟩
        else .ok ⟨200, .ok ("body")⟩ :
      String → Except AppError HttpResponse)) ("u1")
      = .ok (⟨404, .ok ("notfound")⟩ : HttpResponse) ∧
    (404 < 200 ∨ 300 ≤ 404) ∧
    download_files (fun _ => .nil) (fun _ => ("s"))
      (httpFetch ((fun u => if u = ("u1") then .ok ⟨404, .ok ("notfound")⟩
        else .ok ⟨200, .ok ("body")⟩ :
      String → Except AppError HttpResponse))) false
      [(("std::a"), ⟨("std::a"), ("u1")⟩), (("std::b"), ⟨("std::b"), ("u2")⟩)]
      ⟨[], []⟩
      = (none, ⟨[("std::a"), ("std::b")], [("u1"), ("u2")]⟩) :=
  ⟨rfl, by decide, rfl⟩

/-- Claim C8 (amended): a failing fetch in the sense of a transport error
from send or a body-read error from text aborts the whole run at once with
that error: no retry, the call list ends with the failing URL (nothing after
it is touched), every cache entry written earlier in the run remains in
place; and re-running with overwrite off resumes by skipping the existing
files and fetching exactly the still-missing entries.  The resume conjunct
requires only that the still-missing entries deliver a readable body,
whatever the status codes: a non-success status is not detected and never
aborts. -/
theorem C8_fetch_abort (parse : String → HForest) (serialize : HForest → String)
    (send : String → Except AppError HttpResponse) (overwrite : Bool)
    (pre post : List (String × CppReference)) (name : String) (r : CppReference)
    (st0 st1 : DlState) (e : AppError)
    (hpre : download_files parse serialize (httpFetch send) overwrite pre st0 = (none, st1))
    (hskip : ¬ (name ∈ st1.cache ∧ overwrite = false))
    (herr : send r.url = .error e ∨
      ∃ resp, send r.url = .ok resp ∧ resp.text = .error e) :
    download_files parse serialize (httpFetch send) overwrite
        (pre ++ (name, r) :: post) st0 =
      (some e, ⟨st1.cache, st1.calls ++ [r.url]⟩) ∧
    (∀ send2 : String → Except AppError HttpResponse,
      ((pre ++ (name, r) :: post).map Prod.fst).Nodup →
      (∀ p ∈ pre ++ (name, r) :: post, p.1 ∉ st1.cache →
        ∃ resp body, send2 p.2.url = .ok resp ∧ resp.text = .ok body) →
      download_files parse serialize (httpFetch send2) false
          (pre ++ (name, r) :: post) ⟨st1.cache, []⟩ =
        (none, ⟨st1.cache ++ (missingOf st1.cache (pre ++ (name, r) :: post)).map Prod.fst,
                (missingOf st1.cache (pre ++ (name, r) :: post)).map (fun p => p.2.url)⟩)) := by
  have hferr : httpFetch send r.url = .error e := by
    unfold httpFetch
    rcases herr with h | ⟨resp, hs, ht⟩
    · rw [h]
    · rw [hs]
      exact ht
  constructor
  · rw [download_append parse serialize (httpFetch send) overwrite pre
      ((name, r) :: post) st0 st1 hpre]
    conv_lhs => rw [download_files]
    rw [if_neg hskip]
    simp only [hferr]
  · intro send2 hnd hsend2
    have hfetch2 : ∀ p ∈ pre ++ (name, r) :: post, p.1 ∉ st1.cache →
        ∃ b, httpFetch send2 p.2.url = .ok b := by
      intro p hp hm
      obtain ⟨resp, body, hs, ht⟩ := hsend2 p hp hm
      refine ⟨body, ?_⟩
      unfold httpFetch
      rw [hs]
      exact ht
    have := download_ok parse serialize (httpFetch send2) (pre ++ (name, r) :: post)
      ⟨st1.cache, []⟩ hnd hfetch2
    simpa using this

/-- Witness for C8: the second of three entries fails with a transport
error; the first stays cached, the third is never fetched. -/
theorem C8_fetch_abort_witness :
    download_files (fun _ => .nil) (fun _ => ("s"))
      (httpFetch (fun u => if u = ("u2") then .error (.HttpError ("boom"))
        else .ok (⟨200, .ok ("body")⟩ : HttpResponse))) false
      ([(("std::a"), ⟨("std::a"), ("u1")⟩)] ++
        (("std::b"), (⟨("std::b"), ("u2")⟩ : CppReference)) ::
          [(("std::c"), ⟨("std::c"), ("u3")⟩)])
      ⟨[], []⟩
      = (some (.HttpError ("boom")), ⟨[("std::a")], [("u1"), ("u2")]⟩) :=
  (C8_fetch_abort (fun _ => .nil) (fun _ => ("s"))
    (fun u => if u = ("u2") then .error (.HttpError ("boom"))
      else .ok (⟨200, .ok ("body")⟩ : HttpResponse)) false
    [(("std::a"), ⟨("std::a"), ("u1")⟩)] [(("std::c"), ⟨("std::c"), ("u3")⟩)]
    ("std::b") ⟨("std::b"), ("u2")⟩ ⟨[], []⟩ ⟨[("std::a")], [("u1")]⟩
    (.HttpError ("boom")) rfl (by decide) (Or.inl rfl)).1

/-! ## Printing (print_references) -/

/-- The selector body of print_references. -/
def isBody : HNode → Bool
  | .elem _ t _ _ => t == ("body")
  | .text _ => false

/-- Children of a node (current_body.children()). -/
def nodeChildren : HNode → HForest
  | .elem _ _ _ cs => cs
  | .text _ => .nil

/-- Append a node at the end of a child list (TreeSink append). -/
def appendEnd : HForest → HNode → HForest
  | .nil, c => .cons c .nil
  | .cons n rest, c => .cons n (appendEnd rest c)

/- Append a new child into the first body element of the document, the
body_id obtained at the start of print_references. -/
mutual
def appendBodyF (c : HNode) : HForest → HForest × Bool
  | .nil => (.nil, false)
  | .cons n rest =>
    match appendBodyN c n with
    | (n2, true) => (.cons n2 rest, true)
    | (_, false) =>
      match appendBodyF c rest with
      | (rest2, b) => (.cons n rest2, b)
def appendBodyN (c : HNode) : HNode → HNode × Bool
  | .text s => (.text s, false)
  | .elem i t a cs =>
    if t == ("body") then (.elem i t a (appendEnd cs c), true)
    else
      match appendBodyF c cs with
      | (cs2, b) => (.elem i t a cs2, b)
end

/-- One iteration of the concatenation loop of print_references: when the
current page has a body, append to the root body a fresh div container
holding that body's children (add_element_to_tree copies elements with tag,
attributes and text preserved; the fresh arena ids of the copies are not
observable in the serialized output, so the container id is fixed to 0
here); a page with no body contributes nothing. -/
def mergeStep (root : HForest) (page : HForest) : HForest :=
  match extractFirst isBody page with
  | some (b, _) => (appendBodyF (.elem 0 ("div") [] (nodeChildren b)) root).1
  | none => root

/-- The missing_files helper of src/errors.rs lines 44-53, which builds the
distinct MissingRequiredFiles error enumerating the missing names.  No code
path of the repository calls it. -/
def AppError.missing_files (files : List String) : AppError :=
  .MissingRequiredFiles files.length
    (String.intercalate (", ") (files.map (fun f => f ++ (".html"))))

/-- print_references from src/commands/print.rs lines 28-200: fail when the
cache directory is absent; compute the required names (the deduplicated map
keys) and the missing ones; fail on missing files with a generic IoError
carrying only the count; otherwise keep the required cached pages, sort them
with compare_cpp_names, merge the pages into the first page's document, and
flatten code blocks when not colored.  The result is the output path and the
written content.  Reading files is the readPage collaborator. -/
def print_references (parse : String → HForest) (serialize : HForest → String)
    (colored : Bool) (dirExists : Bool)
    (unique : List (String × CppReference)) (htmlFiles : List String)
    (readPage : String → String) : Except AppError (String × String) :=
  if dirExists = false then
    .error (.IoError ("cppreference directory does not exist"))
  else
    let required := unique.map Prod.fst
    let missing := required.filter (fun n => !htmlFiles.contains n)
    if missing.isEmpty = false then
      .error (.IoError ("Missing " ++ toString missing.length ++
        " required HTML file(s). Run \x27cargo run -- ref download\x27 first."))
    else
      let sorted := (htmlFiles.filter (fun n => required.contains n)).mergeSort
        (fun a b => compare_cpp_names a b != .gt)
      match sorted with
      | [] => .error (.IoError ("No HTML files found in cppreference directory"))
      | first :: rest =>
        match extractFirst isBody (parse (readPage first)) with
        | none => .error (.IoError ("Could not find body element in root document"))
        | some _ =>
          let merged := rest.foldl
            (fun root f => mergeStep root (parse (readPage f))) (parse (readPage first))
          let content := serialize merged
          if colored = true then .ok (("./cppreference_print_colored.html"), content)
          else
            match process_for_printing parse serialize content with
            | .error e => .error e
            | .ok s => .ok (("./cppreference_print.html"), s)

/-- Claim C5 is wrong about the code: print against an incomplete cache
fails with the generic AppError::IoError whose message carries only the
count of missing files, not an enumerated list of the missing names, and not
the distinct MissingRequiredFiles error; the missing_files constructor that
would build that distinct error exists in src/errors.rs but is never called.
The third conjunct shows what the claimed error would have been. -/
theorem C5_missing_files_error :
    print_references (fun _ => .nil) (fun _ => ("")) false true
      [(("std::sort"), ⟨("std::sort"), ("u")⟩)] [] (fun _ => (""))
      = .error (.IoError
          ("Missing 1 required HTML file(s). Run \x27cargo run -- ref download\x27 first.")) ∧
    (∀ c f, (AppError.IoError
        ("Missing 1 required HTML file(s). Run \x27cargo run -- ref download\x27 first."))
      ≠ .MissingRequiredFiles c f) ∧
    AppError.missing_files [("std::sort")] = .MissingRequiredFiles 1 ("std::sort.html") :=
  ⟨rfl, fun c f h => AppError.noConfusion h, rfl⟩

end Algcmp
